import Mathlib

/-!
Verification of the TrendX aggregation pipeline (fetch → deduplicate → score → rank).

The development shallowly embeds `trendx/aggregator/deduplicator.py`,
`trendx/aggregator/scorer.py` and `trendx/aggregator/aggregator.py`:

* Python floats are modelled as real numbers (`ℝ`); timestamps are modelled as
  real-valued epoch seconds, with `datetime` differences compared in seconds
  (`timedelta(hours=1)` is `3600`, `timedelta(hours=24)` is `86400`).
* Python's `str.lower` / `str.isupper` / regex `\w` and `\s` classes are
  modelled with their ASCII semantics, which is what every concrete input in
  the specification exercises.
* `hashlib.md5(...).hexdigest()` is kept abstract: every deduplicator
  definition and theorem is parametric in a digest function
  `md5hex : String → String`.  The code only ever compares digests for
  equality, and equal inputs give equal digests for any function, so every
  theorem proved below holds for the real MD5 in particular.
* Python's stable `list.sort(key=..., reverse=True)` is modelled by a stable
  descending insertion sort (`sortByScoreDesc`); stable descending sorting is
  uniquely determined by sortedness plus stability, so this is the canonical
  functional model of the in-place sort.
* The aggregator's `await source.fetch_trends(limit)` calls are modelled by a
  list of prerecorded outcomes, one per configured source, each either
  `Except.ok items` (a successful fetch) or `Except.error e` (a raised fault
  caught by the `try/except` block).
-/

namespace TrendX

/-- Source kinds, from `trendx/common/models.py` (`TrendSource`). -/
inductive TrendSource where
  | reddit
  | google_trends
  | twitter_trends
  | youtube_trending
  | rss
  | selenium_trends
deriving DecidableEq

/-- The `.value` of a `TrendSource` enum member (its string payload). -/
def sourceValue : TrendSource → String
  | .reddit => "reddit"
  | .google_trends => "google_trends"
  | .twitter_trends => "twitter_trends"
  | .youtube_trending => "youtube_trending"
  | .rss => "rss"
  | .selenium_trends => "selenium_trends"

/-- One trend record, from `trendx/common/models.py` (`TrendItem`).  The
database-only `id` / `updated_at` columns are irrelevant to the pipeline and
omitted; `trend_metadata` is an opaque payload modelled by an optional
string. -/
structure TrendItem where
  source : TrendSource
  external_id : String
  title : String
  description : Option String := none
  url : Option String := none
  score : ℝ := 0
  social_volume : ℤ := 0
  is_turkey_related : Bool := false
  is_global : Bool := true
  trend_metadata : Option String := none
  created_at : ℝ

/-! ## Deduplicator (`trendx/aggregator/deduplicator.py`) -/

/-- Python regex class `\s` (ASCII): space, tab, newline, carriage return,
vertical tab, form feed. -/
def pyIsSpace (c : Char) : Bool :=
  c == ' ' || c == '\t' || c == '\n' || c == '\r' || c == '\x0b' || c == '\x0c'

/-- Python regex class `\w` (ASCII): letters, digits and underscore. -/
def pyIsWordChar (c : Char) : Bool :=
  c.isAlphanum || c == '_'

/-- Model of `re.sub(r"\s+", " ", text)`: every maximal run of whitespace
characters is replaced by a single space. -/
def collapseWhitespace : List Char → List Char
  | [] => []
  | [c] => [if pyIsSpace c then ' ' else c]
  | a :: b :: rest =>
    if pyIsSpace a && pyIsSpace b then collapseWhitespace (b :: rest)
    else (if pyIsSpace a then ' ' else a) :: collapseWhitespace (b :: rest)

/-- Model of `re.sub(r"[^\w\s]", "", text)`: remove every character that is
neither a word character nor whitespace. -/
def stripPunctuation (l : List Char) : List Char :=
  l.filter (fun c => pyIsWordChar c || pyIsSpace c)

/-- Accumulator loop for `str.split()` (split on whitespace runs, dropping
empty words). -/
def splitWhitespaceGo : List Char → List Char → List String
  | [], acc => if acc.isEmpty then [] else [String.mk acc.reverse]
  | c :: rest, acc =>
    if pyIsSpace c then
      if acc.isEmpty then splitWhitespaceGo rest []
      else String.mk acc.reverse :: splitWhitespaceGo rest []
    else splitWhitespaceGo rest (c :: acc)

/-- Model of Python's `text.split()` with no separator argument. -/
def splitWhitespace (l : List Char) : List String :=
  splitWhitespaceGo l []

/-- The stop-word set of `Deduplicator._normalize_text`, verbatim (the Python
source lists `"her"` twice; a duplicate entry does not change membership). -/
def stopWords : List String :=
  ["the", "a", "an", "and", "or", "but", "in", "on", "at", "to", "for",
   "of", "with", "by", "is", "are", "was", "were", "be", "been", "being",
   "have", "has", "had", "do", "does", "did", "will", "would", "could",
   "should", "may", "might", "must", "can", "this", "that", "these",
   "those", "i", "you", "he", "she", "it", "we", "they", "me", "him",
   "her", "us", "them", "my", "your", "his", "her", "its", "our", "their"]

/-- `Deduplicator._normalize_text`: lower-case, collapse whitespace runs,
strip punctuation, drop stop words, re-join with single spaces. -/
def normalizeText (text : String) : String :=
  String.intercalate " "
    ((splitWhitespace (stripPunctuation (collapseWhitespace
        (text.data.map Char.toLower)))).filter
      (fun w => !stopWords.contains w))

/-- `Deduplicator._generate_item_hash`: digest of
`f"{normalized_title}|{item.url or ''}"`.  Python's `x or ''` maps both
`None` and the empty string to `''`, which `Option.getD` reproduces on
strings. -/
def generateItemHash (md5hex : String → String) (item : TrendItem) : String :=
  md5hex (normalizeText item.title ++ "|" ++ item.url.getD "")

/-- The `for item in items` loop of `Deduplicator.deduplicate`: keep an item
exactly when its hash is in neither the per-call set (`localSeen`) nor the
instance's persistent set; a kept item's hash joins the per-call set. -/
def dedupGo (md5hex : String → String) (persistent : List String) :
    List TrendItem → List String → List TrendItem × List String
  | [], localSeen => ([], localSeen)
  | item :: rest, localSeen =>
    if generateItemHash md5hex item ∉ localSeen ∧
        generateItemHash md5hex item ∉ persistent then
      (item :: (dedupGo md5hex persistent rest
          (generateItemHash md5hex item :: localSeen)).1,
        (dedupGo md5hex persistent rest
          (generateItemHash md5hex item :: localSeen)).2)
    else dedupGo md5hex persistent rest localSeen

/-- `Deduplicator.deduplicate`, with the mutable `self.seen_hashes` threaded
explicitly: returns the unique items and the updated persistent set
(`self.seen_hashes.update(seen_hashes)` after the loop).  Empty input returns
early without touching the state. -/
def deduplicate (md5hex : String → String) (seen_hashes : List String)
    (items : List TrendItem) : List TrendItem × List String :=
  if items.isEmpty then (items, seen_hashes)
  else ((dedupGo md5hex seen_hashes items []).1,
    seen_hashes ++ (dedupGo md5hex seen_hashes items []).2)

/-- Modelled from the spec: the reference "first occurrence wins" filter —
a record is dropped exactly when its fingerprint is already in the persistent
set or equals the fingerprint of a record emitted earlier in the same call. -/
def specDedup (md5hex : String → String) : List String → List TrendItem → List TrendItem
  | _, [] => []
  | seen, item :: rest =>
    if generateItemHash md5hex item ∈ seen then specDedup md5hex seen rest
    else item :: specDedup md5hex (generateItemHash md5hex item :: seen) rest

/-! ## Scorer (`trendx/aggregator/scorer.py`) -/

/-- `TrendScorer._get_source_authority`'s static fallback table
(`authority_scores.get(source, 0.5)`); `selenium_trends` is absent from the
dict and receives the 0.5 default. -/
noncomputable def defaultAuthority : TrendSource → ℝ
  | .reddit => 0.8
  | .google_trends => 0.9
  | .twitter_trends => 0.7
  | .youtube_trending => 0.6
  | .rss => 0.5
  | .selenium_trends => 0.5

/-- `TrendScorer._get_source_authority`: the scorer's `self.sources` map is
modelled as a partial map from source names to the
`get_source_authority_score()` value of the registered adapter. -/
noncomputable def getSourceAuthority (sources : String → Option ℝ)
    (source : TrendSource) : ℝ :=
  match sources (sourceValue source) with
  | some a => a
  | none => defaultAuthority source

/-- `TrendScorer._calculate_recency_score`; `now` is the evaluation time
(`datetime.utcnow()`), ages are in seconds and `hours_old` is
`age.total_seconds() / 3600`. -/
noncomputable def calcRecencyScore (now : ℝ) (item : TrendItem) : ℝ :=
  if now - item.created_at ≤ 3600 then 1.0
  else if 86400 ≤ now - item.created_at then 0.1
  else max 0.1 (1.0 - ((now - item.created_at) / 3600 - 1) / 23)

/-- `TrendScorer._calculate_social_volume_score`. -/
noncomputable def calcSocialVolumeScore (item : TrendItem) : ℝ :=
  if item.social_volume ≤ 0 then 0.0
  else Real.log (1 + min ((item.social_volume : ℝ) / 5000) 1.0 * 9) / Real.log 10

/-- `TrendScorer._calculate_relevance_bonus`: `+0.1` for Turkey-related,
`+0.05` for global, capped at `0.2`. -/
noncomputable def calcRelevanceBonus (item : TrendItem) : ℝ :=
  min ((if item.is_turkey_related then (0.1 : ℝ) else 0)
    + (if item.is_global then 0.05 else 0)) 0.2

/-- Whether `item.title[0].isupper()`; the Python indexing can only be reached
with a title of length at least 10, so the empty case is unreachable there. -/
def firstCharUpper (title : String) : Bool :=
  match title.data with
  | [] => false
  | c :: _ => c.isUpper

/-- `TrendScorer._calculate_title_quality_score` on the raw title string; the
sequential `score += ...` adjustments are written as one sum. -/
noncomputable def titleQuality (title : String) : ℝ :=
  if (title.data.map Char.toLower).length < 10 then 0.3
  else if 200 < (title.data.map Char.toLower).length then 0.5
  else
    min (max ((if firstCharUpper title then (0.7 : ℝ) else 0.5)
      + (if (title.data.map Char.toLower).contains '?' then 0.1 else 0)
      + (if (title.data.map Char.toLower).any Char.isDigit then 0.1 else 0)
      - (if 2 < (title.data.map Char.toLower).count '!'
            ∨ 2 < (title.data.map Char.toLower).count '?' then 0.1 else 0)) 0.0) 1.0

/-- `TrendScorer._calculate_title_quality_score` applied to an item. -/
noncomputable def calcTitleQualityScore (item : TrendItem) : ℝ :=
  titleQuality item.title

/-- `TrendScorer._calculate_item_score`: the weighted sum of the five
sub-scores, capped at 1.0. -/
noncomputable def calcItemScore (sources : String → Option ℝ) (now : ℝ)
    (item : TrendItem) : ℝ :=
  min (calcRecencyScore now item * 0.3
    + getSourceAuthority sources item.source * 0.2
    + calcSocialVolumeScore item * 0.2
    + calcRelevanceBonus item * 0.2
    + calcTitleQualityScore item * 0.1) 1.0

/-- Python's `max(scores)` on a non-empty list (the empty case is guarded in
the caller and never evaluated). -/
noncomputable def pyMax : List ℝ → ℝ
  | [] => 0
  | x :: xs => xs.foldl max x

/-- Python's `min(scores)` on a non-empty list. -/
noncomputable def pyMin : List ℝ → ℝ
  | [] => 0
  | x :: xs => xs.foldl min x

/-- `TrendScorer._normalize_scores`: rescale the batch onto `[0, 1]`, or set
every score to 0.5 when all raw scores coincide. -/
noncomputable def normalizeScores (items : List TrendItem) : List TrendItem :=
  if items.isEmpty then items
  else if pyMax (items.map TrendItem.score) = pyMin (items.map TrendItem.score) then
    items.map (fun it => { it with score := 0.5 })
  else
    items.map (fun it =>
      { it with score := (it.score - pyMin (items.map TrendItem.score))
          / (pyMax (items.map TrendItem.score) - pyMin (items.map TrendItem.score)) })

/-- Stable descending insertion: place `x` before the first element whose
score is `≤ x.score`, after all strictly greater ones.  This is the unique
stable model of Python's `items.sort(key=lambda x: x.score, reverse=True)`. -/
noncomputable def insertDesc (x : TrendItem) : List TrendItem → List TrendItem
  | [] => [x]
  | y :: ys => if y.score ≤ x.score then x :: y :: ys else y :: insertDesc x ys

/-- Stable descending sort by score (see `insertDesc`). -/
noncomputable def sortByScoreDesc : List TrendItem → List TrendItem
  | [] => []
  | x :: xs => insertDesc x (sortByScoreDesc xs)

/-- `TrendScorer.calculate_scores`: assign every item its raw score,
normalize the batch, and sort descending by score (stably).  Empty input is
returned unchanged. -/
noncomputable def calculate_scores (sources : String → Option ℝ) (now : ℝ)
    (items : List TrendItem) : List TrendItem :=
  if items.isEmpty then items
  else sortByScoreDesc (normalizeScores
    (items.map (fun it => { it with score := calcItemScore sources now it })))

/-! ## Aggregator (`trendx/aggregator/aggregator.py`) -/

/-- The fetch loop of `TrendAggregator.aggregate_trends`: concatenate the
items of every successful fetch; a raised fault (`Except.error`) is caught and
contributes nothing. -/
def collectFetched (fetched : List (Except String (List TrendItem))) : List TrendItem :=
  fetched.foldl (fun acc r =>
    match r with
    | Except.ok items => acc ++ items
    | Except.error _ => acc) []

/-- `TrendAggregator.aggregate_trends`: fetch (tolerating per-source
failures), return `[]` if nothing was fetched, otherwise deduplicate, score
and truncate to the first `limit` entries. -/
noncomputable def aggregate_trends (md5hex : String → String)
    (sources : String → Option ℝ) (now : ℝ) (seen_hashes : List String)
    (fetched : List (Except String (List TrendItem))) (limit : ℕ) : List TrendItem :=
  if (collectFetched fetched).isEmpty then []
  else List.take limit (calculate_scores sources now
    (deduplicate md5hex seen_hashes (collectFetched fetched)).1)

/-! ## Concrete records used by witnesses and counterexamples -/

/-- An always-empty active source map (authority falls back to the static
table). -/
def emptySourceMap : String → Option ℝ := fun _ => none

/-- Replace the (Scorer-owned) `score` field by the default 0, keeping every
other field; used to state frame conditions. -/
noncomputable def eraseScore (item : TrendItem) : TrendItem :=
  { item with score := 0 }

/-- A concrete record used to instantiate hypotheses in witnesses. -/
def sampleItem : TrendItem :=
  { source := .reddit
    external_id := "sample-1"
    title := "Sample headline one"
    description := none
    url := some "https://example.com/sample"
    score := 0
    social_volume := 0
    is_turkey_related := false
    is_global := true
    trend_metadata := none
    created_at := 0 }

/-- Scenario A, record R1: `title="Breaking: Major NEWS!!!"`,
`url="https://x.com/1"`. -/
def recA1 : TrendItem :=
  { source := .reddit
    external_id := "a1"
    title := "Breaking: Major NEWS!!!"
    description := none
    url := some "https://x.com/1"
    score := 0
    social_volume := 0
    is_turkey_related := false
    is_global := true
    trend_metadata := none
    created_at := 0 }

/-- Scenario A, record R2: `title="breaking major news"`, same URL, different
source and external id. -/
def recA2 : TrendItem :=
  { source := .twitter_trends
    external_id := "a2"
    title := "breaking major news"
    description := none
    url := some "https://x.com/1"
    score := 0
    social_volume := 0
    is_turkey_related := false
    is_global := true
    trend_metadata := none
    created_at := 0 }

/-- Scenario B: one record created one hour before the evaluation time `now`,
`socialVolume = 1000`, Reddit source (authority 0.8 from the fallback table),
Turkey-related but not global, `title = "Recent news"`. -/
noncomputable def scenarioB (now : ℝ) : TrendItem :=
  { source := .reddit
    external_id := "b1"
    title := "Recent news"
    description := none
    url := none
    score := 0
    social_volume := 1000
    is_turkey_related := true
    is_global := false
    trend_metadata := none
    created_at := now - 3600 }

/-! ## Deduplicator lemmas -/

lemma dedupGo_out_cond (md5hex : String → String) (persistent : List String) :
    ∀ (l : List TrendItem) (localSeen : List String) (x : TrendItem),
      x ∈ (dedupGo md5hex persistent l localSeen).1 →
      generateItemHash md5hex x ∉ persistent ∧
        generateItemHash md5hex x ∉ localSeen := by
  intro l
  induction l with
  | nil => intro localSeen x hx; simp [dedupGo] at hx
  | cons item rest ih =>
    intro localSeen x hx
    rw [dedupGo] at hx
    split_ifs at hx with hkeep
    · rcases List.mem_cons.mp hx with hx | hx
      · subst hx; exact ⟨hkeep.2, hkeep.1⟩
      · have h := ih _ x hx
        refine ⟨h.1, fun hmem => h.2 (List.mem_cons_of_mem _ hmem)⟩
    · exact ih _ x hx

lemma dedupGo_out_pairwise (md5hex : String → String) (persistent : List String) :
    ∀ (l : List TrendItem) (localSeen : List String),
      ((dedupGo md5hex persistent l localSeen).1).Pairwise
        (fun a b => generateItemHash md5hex a ≠ generateItemHash md5hex b) := by
  intro l
  induction l with
  | nil => intro localSeen; simp [dedupGo]
  | cons item rest ih =>
    intro localSeen
    rw [dedupGo]
    split_ifs with hkeep
    · refine List.Pairwise.cons ?_ (ih _)
      intro b hb
      have h := dedupGo_out_cond md5hex persistent _ _ b hb
      intro heq
      exact h.2 (heq ▸ List.mem_cons_self _ _)
    · exact ih _

lemma dedupGo_keeps_all (md5hex : String → String) (persistent : List String) :
    ∀ (l : List TrendItem) (localSeen : List String),
      (∀ x ∈ l, generateItemHash md5hex x ∉ persistent ∧
        generateItemHash md5hex x ∉ localSeen) →
      l.Pairwise (fun a b => generateItemHash md5hex a ≠ generateItemHash md5hex b) →
      (dedupGo md5hex persistent l localSeen).1 = l := by
  intro l
  induction l with
  | nil => intro localSeen _ _; rfl
  | cons item rest ih =>
    intro localSeen hcond hpw
    have hhead := hcond item (List.mem_cons_self _ _)
    rw [dedupGo, if_pos ⟨hhead.2, hhead.1⟩]
    rw [List.pairwise_cons] at hpw
    have : (dedupGo md5hex persistent rest
        (generateItemHash md5hex item :: localSeen)).1 = rest := by
      refine ih _ ?_ hpw.2
      intro x hx
      have h := hcond x (List.mem_cons_of_mem _ hx)
      refine ⟨h.1, ?_⟩
      intro hmem
      rcases List.mem_cons.mp hmem with heq | hmem
      · exact hpw.1 x hx heq.symm
      · exact h.2 hmem
    rw [this]

lemma dedupGo_local_mono (md5hex : String → String) (persistent : List String) :
    ∀ (l : List TrendItem) (localSeen : List String) (s : String),
      s ∈ localSeen → s ∈ (dedupGo md5hex persistent l localSeen).2 := by
  intro l
  induction l with
  | nil => intro localSeen s hs; simpa [dedupGo] using hs
  | cons item rest ih =>
    intro localSeen s hs
    rw [dedupGo]
    split_ifs with hkeep
    · exact ih _ s (List.mem_cons_of_mem _ hs)
    · exact ih _ s hs

lemma dedupGo_out_hash_in_final (md5hex : String → String) (persistent : List String) :
    ∀ (l : List TrendItem) (localSeen : List String) (x : TrendItem),
      x ∈ (dedupGo md5hex persistent l localSeen).1 →
      generateItemHash md5hex x ∈ (dedupGo md5hex persistent l localSeen).2 := by
  intro l
  induction l with
  | nil => intro localSeen x hx; simp [dedupGo] at hx
  | cons item rest ih =>
    intro localSeen x hx
    rw [dedupGo] at hx ⊢
    split_ifs at hx ⊢ with hkeep
    · rcases List.mem_cons.mp hx with hx | hx
      · subst hx
        exact dedupGo_local_mono md5hex persistent rest _ _ (List.mem_cons_self _ _)
      · exact ih _ x hx
    · exact ih _ x hx

lemma dedupGo_all_seen (md5hex : String → String) (persistent : List String) :
    ∀ (l : List TrendItem) (localSeen : List String),
      (∀ x ∈ l, generateItemHash md5hex x ∈ persistent) →
      (dedupGo md5hex persistent l localSeen).1 = [] := by
  intro l
  induction l with
  | nil => intro localSeen _; rfl
  | cons item rest ih =>
    intro localSeen hall
    rw [dedupGo]
    have : ¬ (generateItemHash md5hex item ∉ localSeen ∧
        generateItemHash md5hex item ∉ persistent) := by
      intro h
      exact h.2 (hall item (List.mem_cons_self _ _))
    rw [if_neg this]
    exact ih _ (fun x hx => hall x (List.mem_cons_of_mem _ hx))

lemma dedupGo_eq_spec (md5hex : String → String) (persistent : List String) :
    ∀ (l : List TrendItem) (localSeen : List String),
      (dedupGo md5hex persistent l localSeen).1 =
        specDedup md5hex (localSeen ++ persistent) l := by
  intro l
  induction l with
  | nil => intro localSeen; rfl
  | cons item rest ih =>
    intro localSeen
    rw [dedupGo, specDedup]
    by_cases hmem : generateItemHash md5hex item ∈ localSeen ++ persistent
    · rw [if_pos hmem]
      have : ¬ (generateItemHash md5hex item ∉ localSeen ∧
          generateItemHash md5hex item ∉ persistent) := by
        intro h
        rcases List.mem_append.mp hmem with hl | hp
        · exact h.1 hl
        · exact h.2 hp
      rw [if_neg this]
      exact ih _
    · have hnl : generateItemHash md5hex item ∉ localSeen :=
        fun h => hmem (List.mem_append.mpr (Or.inl h))
      have hnp : generateItemHash md5hex item ∉ persistent :=
        fun h => hmem (List.mem_append.mpr (Or.inr h))
      rw [if_neg hmem, if_pos ⟨hnl, hnp⟩]
      rw [ih]
      rfl

lemma specDedup_sublist (md5hex : String → String) :
    ∀ (l : List TrendItem) (seen : List String),
      List.Sublist (specDedup md5hex seen l) l := by
  intro l
  induction l with
  | nil => intro seen; exact List.Sublist.refl _
  | cons item rest ih =>
    intro seen
    rw [specDedup]
    split_ifs with hmem
    · exact List.Sublist.cons _ (ih _)
    · exact List.Sublist.cons₂ _ (ih _)

lemma deduplicate_nil (md5hex : String → String) (seen : List String) :
    deduplicate md5hex seen [] = ([], seen) := rfl

lemma deduplicate_fst (md5hex : String → String) (seen : List String)
    (items : List TrendItem) :
    (deduplicate md5hex seen items).1 = (dedupGo md5hex seen items []).1 := by
  cases items with
  | nil => rfl
  | cons a as => rfl

lemma deduplicate_fst_eq_spec (md5hex : String → String) (seen : List String)
    (items : List TrendItem) :
    (deduplicate md5hex seen items).1 = specDedup md5hex seen items := by
  rw [deduplicate_fst, dedupGo_eq_spec]
  rfl

lemma deduplicate_sublist (md5hex : String → String) (seen : List String)
    (items : List TrendItem) :
    List.Sublist (deduplicate md5hex seen items).1 items := by
  rw [deduplicate_fst_eq_spec]
  exact specDedup_sublist md5hex items seen

lemma deduplicate_snd_cons (md5hex : String → String) (seen : List String)
    (a : TrendItem) (as : List TrendItem) :
    (deduplicate md5hex seen (a :: as)).2 =
      seen ++ (dedupGo md5hex seen (a :: as) []).2 := rfl

/-! ## Claim theorems about the Deduplicator -/

/-- C7: `deduplicate` returns a subsequence of its input (preserving the
relative order of first-seen occurrences); it equals the reference
first-occurrence-wins filter `specDedup`, which drops a record exactly when
its fingerprint is in the persistent set or matches a record emitted earlier
in the same call; and on empty input it returns an empty list with the
persistent fingerprint set unchanged. -/
theorem dedupe_functional_correct (md5hex : String → String) (seen : List String)
    (items : List TrendItem) :
    List.Sublist (deduplicate md5hex seen items).1 items ∧
    (deduplicate md5hex seen items).1 = specDedup md5hex seen items ∧
    deduplicate md5hex seen [] = ([], seen) :=
  ⟨deduplicate_sublist md5hex seen items,
   deduplicate_fst_eq_spec md5hex seen items,
   deduplicate_nil md5hex seen⟩

/-- C2 (counterexample): on a single `Deduplicator` instance, applying
`dedupe` twice in succession does not return `dedupe(X)` — the first call
persists the fingerprints, so the second call returns the empty list.  Here
`dedupe([sampleItem])` is `[sampleItem]` but the successive second call
returns `[]`. -/
theorem dedupe_succession_counterexample :
    (deduplicate id (deduplicate id [] [sampleItem]).2
        (deduplicate id [] [sampleItem]).1).1
      ≠ (deduplicate id [] [sampleItem]).1 :=
  fun h => absurd (congrArg List.length h) (by decide)

/-- C2 (amended): applying `dedupe` twice from the same persistent state is
idempotent — the second pass removes nothing; but applied twice in succession
on one instance, the second call returns the empty list, because the first
call merged every emitted fingerprint into the persistent set. -/
theorem dedupe_idempotent_fixed_state (md5hex : String → String)
    (seen : List String) (items : List TrendItem) :
    (deduplicate md5hex seen (deduplicate md5hex seen items).1).1
      = (deduplicate md5hex seen items).1 ∧
    (deduplicate md5hex (deduplicate md5hex seen items).2
      (deduplicate md5hex seen items).1).1 = [] := by
  constructor
  · rw [deduplicate_fst md5hex seen (deduplicate md5hex seen items).1]
    apply dedupGo_keeps_all
    · intro x hx
      rw [deduplicate_fst] at hx
      have h := dedupGo_out_cond md5hex seen items [] x hx
      exact ⟨h.1, List.not_mem_nil _⟩
    · rw [deduplicate_fst]
      exact dedupGo_out_pairwise md5hex seen items []
  · cases items with
    | nil => rfl
    | cons a as =>
      rw [deduplicate_fst]
      apply dedupGo_all_seen
      intro x hx
      rw [deduplicate_fst] at hx
      rw [deduplicate_snd_cons]
      exact List.mem_append.mpr
        (Or.inr (dedupGo_out_hash_in_final md5hex seen (a :: as) [] x hx))

/-- C6: the duplicate fingerprint depends only on the normalized title and
the URL (so records agreeing on those are recognized as duplicates whatever
their source or external id), and concretely
`dedupe([R1, R2])` with R1 = "Breaking: Major NEWS!!!" and
R2 = "breaking major news", both with url "https://x.com/1", returns `[R1]`. -/
theorem dedup_determinism :
    (∀ (md5hex : String → String) (r1 r2 : TrendItem),
        normalizeText r1.title = normalizeText r2.title →
        r1.url.getD "" = r2.url.getD "" →
        generateItemHash md5hex r1 = generateItemHash md5hex r2) ∧
    (deduplicate id [] [recA1, recA2]).1 = [recA1] := by
  constructor
  · intro md5hex r1 r2 ht hu
    unfold generateItemHash
    rw [ht, hu]
  · rfl

/-- C6 (witness): the two scenario-A records have equal fingerprints, via
the determinism theorem applied at `recA1`, `recA2`. -/
theorem dedup_determinism_witness :
    generateItemHash id recA1 = generateItemHash id recA2 :=
  dedup_determinism.1 id recA1 recA2 (by decide) rfl

/-! ## Scorer lemmas: batch extremes -/

lemma le_foldl_max (l : List ℝ) :
    ∀ (b a : ℝ), a = b ∨ a ∈ l → a ≤ l.foldl max b := by
  induction l with
  | nil =>
    intro b a ha
    rcases ha with ha | ha
    · exact le_of_eq ha
    · simp at ha
  | cons x xs ih =>
    intro b a ha
    rw [List.foldl_cons]
    rcases ha with ha | ha
    · exact le_trans (ha ▸ le_max_left b x) (ih (max b x) (max b x) (Or.inl rfl))
    · rcases List.mem_cons.mp ha with ha | ha
      · exact le_trans (ha ▸ le_max_right b x) (ih (max b x) (max b x) (Or.inl rfl))
      · exact ih (max b x) a (Or.inr ha)

lemma foldl_min_le (l : List ℝ) :
    ∀ (b a : ℝ), a = b ∨ a ∈ l → l.foldl min b ≤ a := by
  induction l with
  | nil =>
    intro b a ha
    rcases ha with ha | ha
    · exact le_of_eq ha.symm
    · simp at ha
  | cons x xs ih =>
    intro b a ha
    rw [List.foldl_cons]
    rcases ha with ha | ha
    · exact le_trans (ih (min b x) (min b x) (Or.inl rfl)) (ha ▸ min_le_left b x)
    · rcases List.mem_cons.mp ha with ha | ha
      · exact le_trans (ih (min b x) (min b x) (Or.inl rfl)) (ha ▸ min_le_right b x)
      · exact ih (min b x) a (Or.inr ha)

lemma mem_le_pyMax {a : ℝ} {l : List ℝ} (h : a ∈ l) : a ≤ pyMax l := by
  cases l with
  | nil => simp at h
  | cons x xs =>
    rw [pyMax]
    rcases List.mem_cons.mp h with h | h
    · exact le_foldl_max xs x a (Or.inl h)
    · exact le_foldl_max xs x a (Or.inr h)

lemma pyMin_le_mem {a : ℝ} {l : List ℝ} (h : a ∈ l) : pyMin l ≤ a := by
  cases l with
  | nil => simp at h
  | cons x xs =>
    rw [pyMin]
    rcases List.mem_cons.mp h with h | h
    · exact foldl_min_le xs x a (Or.inl h)
    · exact foldl_min_le xs x a (Or.inr h)

lemma foldl_max_mem (l : List ℝ) : ∀ b : ℝ, l.foldl max b = b ∨ l.foldl max b ∈ l := by
  induction l with
  | nil => intro b; exact Or.inl rfl
  | cons x xs ih =>
    intro b
    rw [List.foldl_cons]
    rcases ih (max b x) with h | h
    · rcases max_choice b x with hm | hm
      · exact Or.inl (h.trans hm)
      · exact Or.inr (List.mem_cons.mpr (Or.inl (h.trans hm)))
    · exact Or.inr (List.mem_cons_of_mem _ h)

lemma foldl_min_mem (l : List ℝ) : ∀ b : ℝ, l.foldl min b = b ∨ l.foldl min b ∈ l := by
  induction l with
  | nil => intro b; exact Or.inl rfl
  | cons x xs ih =>
    intro b
    rw [List.foldl_cons]
    rcases ih (min b x) with h | h
    · rcases min_choice b x with hm | hm
      · exact Or.inl (h.trans hm)
      · exact Or.inr (List.mem_cons.mpr (Or.inl (h.trans hm)))
    · exact Or.inr (List.mem_cons_of_mem _ h)

lemma pyMax_mem {l : List ℝ} (h : l ≠ []) : pyMax l ∈ l := by
  cases l with
  | nil => exact absurd rfl h
  | cons x xs =>
    rw [pyMax]
    rcases foldl_max_mem xs x with hm | hm
    · exact List.mem_cons.mpr (Or.inl hm)
    · exact List.mem_cons_of_mem _ hm

lemma pyMin_mem {l : List ℝ} (h : l ≠ []) : pyMin l ∈ l := by
  cases l with
  | nil => exact absurd rfl h
  | cons x xs =>
    rw [pyMin]
    rcases foldl_min_mem xs x with hm | hm
    · exact List.mem_cons.mpr (Or.inl hm)
    · exact List.mem_cons_of_mem _ hm

lemma pyMin_le_pyMax {l : List ℝ} (h : l ≠ []) : pyMin l ≤ pyMax l :=
  pyMin_le_mem (pyMax_mem h)

/-! ## Scorer lemmas: normalization -/

lemma normalizeScores_bounds (l : List TrendItem) (h : l ≠ []) :
    ∀ x ∈ normalizeScores l, 0 ≤ x.score ∧ x.score ≤ 1 := by
  intro x hx
  cases l with
  | nil => exact absurd rfl h
  | cons a as =>
    rw [normalizeScores] at hx
    simp only [List.isEmpty_cons, Bool.false_eq_true, if_false] at hx
    split_ifs at hx with hMm
    · obtain ⟨y, hy, rfl⟩ := List.mem_map.mp hx
      norm_num
    · obtain ⟨y, hy, rfl⟩ := List.mem_map.mp hx
      have hymem : y.score ∈ (a :: as).map TrendItem.score :=
        List.mem_map.mpr ⟨y, hy, rfl⟩
      have h1 : pyMin ((a :: as).map TrendItem.score) ≤ y.score := pyMin_le_mem hymem
      have h2 : y.score ≤ pyMax ((a :: as).map TrendItem.score) := mem_le_pyMax hymem
      have h3 : pyMin ((a :: as).map TrendItem.score)
          < pyMax ((a :: as).map TrendItem.score) :=
        lt_of_le_of_ne (pyMin_le_pyMax (by simp)) (fun heq => hMm heq.symm)
      constructor
      · exact div_nonneg (by linarith) (by linarith)
      · rw [div_le_one (by linarith)]
        linarith

lemma normalizeScores_map_erase (l : List TrendItem) :
    (normalizeScores l).map eraseScore = l.map eraseScore := by
  cases l with
  | nil => rfl
  | cons a as =>
    rw [normalizeScores]
    simp only [List.isEmpty_cons, Bool.false_eq_true, if_false]
    split_ifs with hMm
    · rw [List.map_map]
      exact List.map_congr_left (fun y _ => rfl)
    · rw [List.map_map]
      exact List.map_congr_left (fun y _ => rfl)

/-! ## Scorer lemmas: the stable descending sort -/

lemma insertDesc_perm (x : TrendItem) (l : List TrendItem) :
    List.Perm (insertDesc x l) (x :: l) := by
  induction l with
  | nil => exact List.Perm.refl _
  | cons y ys ih =>
    rw [insertDesc]
    split_ifs with h
    · exact List.Perm.refl _
    · exact (List.Perm.cons y ih).trans (List.Perm.swap x y ys)

lemma sortByScoreDesc_perm (l : List TrendItem) :
    List.Perm (sortByScoreDesc l) l := by
  induction l with
  | nil => exact List.Perm.refl _
  | cons x xs ih =>
    rw [sortByScoreDesc]
    exact (insertDesc_perm x (sortByScoreDesc xs)).trans (List.Perm.cons x ih)

lemma insertDesc_sorted (x : TrendItem) {l : List TrendItem}
    (h : l.Sorted (fun a b => b.score ≤ a.score)) :
    (insertDesc x l).Sorted (fun a b => b.score ≤ a.score) := by
  induction l with
  | nil => simp [insertDesc]
  | cons y ys ih =>
    rw [List.sorted_cons] at h
    rw [insertDesc]
    split_ifs with hle
    · rw [List.sorted_cons]
      refine ⟨?_, List.sorted_cons.mpr h⟩
      intro b hb
      rcases List.mem_cons.mp hb with hb | hb
      · exact hb ▸ hle
      · exact le_trans (h.1 b hb) hle
    · rw [List.sorted_cons]
      refine ⟨?_, ih h.2⟩
      intro b hb
      have : b = x ∨ b ∈ ys :=
        List.mem_cons.mp ((insertDesc_perm x ys).mem_iff.mp hb)
      rcases this with hb | hb
      · exact hb ▸ le_of_not_le hle
      · exact h.1 b hb

lemma sortByScoreDesc_sorted (l : List TrendItem) :
    (sortByScoreDesc l).Sorted (fun a b => b.score ≤ a.score) := by
  induction l with
  | nil => simp [sortByScoreDesc]
  | cons x xs ih =>
    rw [sortByScoreDesc]
    exact insertDesc_sorted x ih

lemma insertDesc_filter (x : TrendItem) (l : List TrendItem) (v : ℝ) :
    (insertDesc x l).filter (fun y => decide (y.score = v)) =
      if x.score = v then x :: l.filter (fun y => decide (y.score = v))
      else l.filter (fun y => decide (y.score = v)) := by
  induction l with
  | nil =>
    by_cases hx : x.score = v <;> simp [insertDesc, List.filter, hx]
  | cons y ys ih =>
    rw [insertDesc]
    by_cases hle : y.score ≤ x.score
    · rw [if_pos hle]
      by_cases hx : x.score = v
      · rw [if_pos hx]
        simp [List.filter_cons, hx]
      · rw [if_neg hx]
        simp [List.filter_cons, hx]
    · rw [if_neg hle, List.filter_cons, ih]
      by_cases hx : x.score = v
      · rw [if_pos hx, if_pos hx]
        have hy : ¬ (y.score = v) := fun hcon => hle (le_of_eq (hx ▸ hcon))
        simp [List.filter_cons, hy]
      · rw [if_neg hx, if_neg hx, List.filter_cons]

lemma sortByScoreDesc_filter (l : List TrendItem) (v : ℝ) :
    (sortByScoreDesc l).filter (fun y => decide (y.score = v)) =
      l.filter (fun y => decide (y.score = v)) := by
  induction l with
  | nil => rfl
  | cons x xs ih =>
    rw [sortByScoreDesc, insertDesc_filter]
    by_cases hx : x.score = v
    · simp [hx, List.filter_cons, ih]
    · simp [hx, List.filter_cons, ih]

lemma calculate_scores_cons (sources : String → Option ℝ) (now : ℝ)
    (a : TrendItem) (as : List TrendItem) :
    calculate_scores sources now (a :: as) =
      sortByScoreDesc (normalizeScores ((a :: as).map
        (fun it => { it with score := calcItemScore sources now it }))) := by
  rw [calculate_scores]
  simp

/-! ## Claim theorems about the Scorer -/

/-- C1: after `calculate_scores` on a non-empty batch, every output score
lies in `[0, 1]`, the output is sorted descending by score, and ties between
equal scores preserve the records' input order: at every score level the
output agrees with the (order-preserving) normalized pre-sort list. -/
theorem scorer_output_bounds_sorted_stable (sources : String → Option ℝ)
    (now : ℝ) (items : List TrendItem) (h : items ≠ []) :
    (∀ x ∈ calculate_scores sources now items, 0 ≤ x.score ∧ x.score ≤ 1) ∧
    (calculate_scores sources now items).Sorted (fun a b => b.score ≤ a.score) ∧
    (∀ v : ℝ, (calculate_scores sources now items).filter
        (fun x => decide (x.score = v))
      = (normalizeScores (items.map
          (fun it => { it with score := calcItemScore sources now it }))).filter
          (fun x => decide (x.score = v))) := by
  cases items with
  | nil => exact absurd rfl h
  | cons a as =>
    rw [calculate_scores_cons]
    refine ⟨?_, sortByScoreDesc_sorted _, fun v => sortByScoreDesc_filter _ v⟩
    intro x hx
    have hx2 : x ∈ normalizeScores ((a :: as).map
        (fun it => { it with score := calcItemScore sources now it })) :=
      (sortByScoreDesc_perm _).mem_iff.mp hx
    exact normalizeScores_bounds _ (by simp) x hx2

/-- C1 (witness): the bounds-and-sortedness theorem applied to the concrete
singleton batch `[sampleItem]`. -/
theorem scorer_output_bounds_sorted_stable_witness :
    ([sampleItem] ≠ []) ∧
      (calculate_scores emptySourceMap 0 [sampleItem]).Sorted
        (fun a b => b.score ≤ a.score) :=
  ⟨by simp,
   (scorer_output_bounds_sorted_stable emptySourceMap 0 [sampleItem] (by simp)).2.1⟩

/-- C3: `_normalize_scores` on a non-empty batch sets every score to exactly
0.5 when the batch extremes coincide, and otherwise rescales every score to
`(raw − min) / (max − min)`, with at least one output at 0.0 and one at
1.0. -/
theorem normalize_scores_spec (items : List TrendItem) (h : items ≠ []) :
    (pyMax (items.map TrendItem.score) = pyMin (items.map TrendItem.score) →
        normalizeScores items = items.map (fun it => { it with score := 0.5 })) ∧
    (pyMax (items.map TrendItem.score) ≠ pyMin (items.map TrendItem.score) →
        normalizeScores items = items.map (fun it =>
          { it with score := (it.score - pyMin (items.map TrendItem.score))
              / (pyMax (items.map TrendItem.score)
                  - pyMin (items.map TrendItem.score)) }) ∧
        (∃ x ∈ normalizeScores items, x.score = 0) ∧
        (∃ x ∈ normalizeScores items, x.score = 1)) := by
  cases items with
  | nil => exact absurd rfl h
  | cons a as =>
    have hne : (a :: as).map TrendItem.score ≠ [] := by simp
    constructor
    · intro hMm
      rw [normalizeScores]
      simp only [List.isEmpty_cons, Bool.false_eq_true, if_false]
      rw [if_pos hMm]
    · intro hMm
      have heq : normalizeScores (a :: as) = (a :: as).map (fun it =>
          { it with score := (it.score - pyMin ((a :: as).map TrendItem.score))
              / (pyMax ((a :: as).map TrendItem.score)
                  - pyMin ((a :: as).map TrendItem.score)) }) := by
        rw [normalizeScores]
        simp only [List.isEmpty_cons, Bool.false_eq_true, if_false]
        rw [if_neg hMm]
      refine ⟨heq, ?_, ?_⟩
      · obtain ⟨y, hy, hys⟩ := List.mem_map.mp (pyMin_mem hne)
        refine ⟨{ y with score := (y.score - pyMin ((a :: as).map TrendItem.score))
            / (pyMax ((a :: as).map TrendItem.score)
                - pyMin ((a :: as).map TrendItem.score)) }, ?_, ?_⟩
        · rw [heq]
          exact List.mem_map.mpr ⟨y, hy, rfl⟩
        · show (y.score - pyMin ((a :: as).map TrendItem.score))
            / (pyMax ((a :: as).map TrendItem.score)
                - pyMin ((a :: as).map TrendItem.score)) = 0
          rw [hys, sub_self, zero_div]
      · obtain ⟨y, hy, hys⟩ := List.mem_map.mp (pyMax_mem hne)
        refine ⟨{ y with score := (y.score - pyMin ((a :: as).map TrendItem.score))
            / (pyMax ((a :: as).map TrendItem.score)
                - pyMin ((a :: as).map TrendItem.score)) }, ?_, ?_⟩
        · rw [heq]
          exact List.mem_map.mpr ⟨y, hy, rfl⟩
        · show (y.score - pyMin ((a :: as).map TrendItem.score))
            / (pyMax ((a :: as).map TrendItem.score)
                - pyMin ((a :: as).map TrendItem.score)) = 1
          rw [hys]
          exact div_self (sub_ne_zero.mpr hMm)

/-- C3 (witness): the normalization theorem applied to the concrete
degenerate batch `[sampleItem]`, whose extremes coincide, giving the 0.5
batch. -/
theorem normalize_scores_spec_witness :
    ([sampleItem] ≠ []) ∧
      normalizeScores [sampleItem]
        = [sampleItem].map (fun it => { it with score := 0.5 }) :=
  ⟨by simp, (normalize_scores_spec [sampleItem] (by simp)).1 rfl⟩

/-- C9: the Deduplicator never mutates any record (its output records are
literally records of the input, in input order), and the Scorer mutates only
the `score` field: erasing scores, its output is a permutation of the
score-erased input. -/
theorem pipeline_frame_condition (md5hex : String → String) (seen : List String)
    (batch : List TrendItem) (sources : String → Option ℝ) (now : ℝ)
    (items : List TrendItem) :
    List.Sublist (deduplicate md5hex seen batch).1 batch ∧
    List.Perm ((calculate_scores sources now items).map eraseScore)
      (items.map eraseScore) := by
  refine ⟨deduplicate_sublist md5hex seen batch, ?_⟩
  cases items with
  | nil => exact List.Perm.refl _
  | cons a as =>
    rw [calculate_scores_cons]
    have h1 : List.Perm ((sortByScoreDesc (normalizeScores ((a :: as).map
        (fun it => { it with score := calcItemScore sources now it })))).map eraseScore)
        ((normalizeScores ((a :: as).map
          (fun it => { it with score := calcItemScore sources now it }))).map eraseScore) :=
      List.Perm.map eraseScore (sortByScoreDesc_perm _)
    rw [normalizeScores_map_erase, List.map_map] at h1
    have h2 : (a :: as).map
        (eraseScore ∘ fun it => { it with score := calcItemScore sources now it })
        = (a :: as).map eraseScore :=
      List.map_congr_left (fun y _ => rfl)
    rw [h2] at h1
    exact h1

/-! ## Claim theorems about recency -/

lemma recencyFun_le_one (a : ℝ) :
    (if a ≤ 3600 then (1.0 : ℝ) else if 86400 ≤ a then 0.1
      else max 0.1 (1.0 - (a / 3600 - 1) / 23)) ≤ (1.0 : ℝ) := by
  split_ifs with h1 h2
  · norm_num
  · norm_num
  · push_neg at h1
    exact max_le (by norm_num) (by linarith)

lemma recencyFun_antitone {a1 a2 : ℝ} (h : a1 ≤ a2) :
    (if a2 ≤ 3600 then (1.0 : ℝ) else if 86400 ≤ a2 then 0.1
      else max 0.1 (1.0 - (a2 / 3600 - 1) / 23))
    ≤ (if a1 ≤ 3600 then (1.0 : ℝ) else if 86400 ≤ a1 then 0.1
      else max 0.1 (1.0 - (a1 / 3600 - 1) / 23)) := by
  by_cases ha1 : a1 ≤ 3600
  · rw [if_pos ha1]
    exact recencyFun_le_one a2
  · rw [if_neg ha1]
    by_cases hb1 : (86400 : ℝ) ≤ a1
    · rw [if_pos hb1, if_neg (show ¬ a2 ≤ 3600 by linarith),
        if_pos (show (86400 : ℝ) ≤ a2 by linarith)]
    · rw [if_neg hb1]
      by_cases ha2 : a2 ≤ 3600
      · exact absurd (le_trans h ha2) ha1
      · rw [if_neg ha2]
        by_cases hb2 : (86400 : ℝ) ≤ a2
        · rw [if_pos hb2]
          exact le_max_left _ _
        · rw [if_neg hb2]
          exact max_le_max le_rfl (by linarith)

lemma calcRecencyScore_antitone (now t1 t2 : ℝ) (item : TrendItem) (h : t2 ≤ t1) :
    calcRecencyScore now { item with created_at := t2 }
      ≤ calcRecencyScore now { item with created_at := t1 } := by
  show (if now - t2 ≤ 3600 then (1.0 : ℝ)
      else if 86400 ≤ now - t2 then 0.1
      else max 0.1 (1.0 - ((now - t2) / 3600 - 1) / 23))
    ≤ (if now - t1 ≤ 3600 then (1.0 : ℝ)
      else if 86400 ≤ now - t1 then 0.1
      else max 0.1 (1.0 - ((now - t1) / 3600 - 1) / 23))
  exact recencyFun_antitone (by linarith)

/-- C5: for two records identical except `createdAt`, evaluated at the same
current time, the more recent one has a recency sub-score at least that of
the older one, and hence (all other sub-scores being equal) a raw item score
at least that of the older one. -/
theorem recency_monotonicity (sources : String → Option ℝ) (now t1 t2 : ℝ)
    (item : TrendItem) (h : t2 ≤ t1) :
    calcRecencyScore now { item with created_at := t2 }
      ≤ calcRecencyScore now { item with created_at := t1 } ∧
    calcItemScore sources now { item with created_at := t2 }
      ≤ calcItemScore sources now { item with created_at := t1 } := by
  have hrec := calcRecencyScore_antitone now t1 t2 item h
  refine ⟨hrec, ?_⟩
  show min (calcRecencyScore now { item with created_at := t2 } * 0.3
      + getSourceAuthority sources item.source * 0.2
      + calcSocialVolumeScore item * 0.2
      + calcRelevanceBonus item * 0.2
      + calcTitleQualityScore item * 0.1) 1.0
    ≤ min (calcRecencyScore now { item with created_at := t1 } * 0.3
      + getSourceAuthority sources item.source * 0.2
      + calcSocialVolumeScore item * 0.2
      + calcRelevanceBonus item * 0.2
      + calcTitleQualityScore item * 0.1) 1.0
  exact min_le_min (by nlinarith) le_rfl

/-- C5 (witness): the monotonicity theorem at `now = 0` comparing creation
times `-7200` (two hours old) and `0` (fresh) on the sample record. -/
theorem recency_monotonicity_witness :
    ((-7200 : ℝ) ≤ 0) ∧
      calcRecencyScore 0 { sampleItem with created_at := -7200 }
        ≤ calcRecencyScore 0 { sampleItem with created_at := 0 } :=
  ⟨by norm_num,
   (recency_monotonicity emptySourceMap 0 0 (-7200) sampleItem (by norm_num)).1⟩

/-- C10: a record whose `createdAt` lies in the future relative to the
evaluation time has a negative age, which falls into the `age ≤ 1 hour`
branch, so its recency sub-score is exactly 1.0. -/
theorem future_recency_clamp (now t : ℝ) (item : TrendItem) (h : now < t) :
    calcRecencyScore now { item with created_at := t } = 1 := by
  show (if now - t ≤ 3600 then (1.0 : ℝ)
      else if 86400 ≤ now - t then 0.1
      else max 0.1 (1.0 - ((now - t) / 3600 - 1) / 23)) = 1
  rw [if_pos (by linarith)]
  norm_num

/-- C10 (witness): the clamp theorem at `now = 0` for a record created at
time 1 (in the future). -/
theorem future_recency_clamp_witness :
    ((0 : ℝ) < 1) ∧ calcRecencyScore 0 { sampleItem with created_at := 1 } = 1 :=
  ⟨by norm_num, future_recency_clamp 0 1 sampleItem (by norm_num)⟩

/-! ## Scenario B: concrete score computation -/

lemma log_ratio_lt : Real.log (14/5) / Real.log 10 < 9/20 := by
  have h10 : (0 : ℝ) < Real.log 10 := Real.log_pos (by norm_num)
  rw [div_lt_iff₀ h10]
  have hpow : ((14 : ℝ)/5) ^ (20 : ℕ) < (10 : ℝ) ^ (9 : ℕ) := by norm_num
  have hlt := Real.log_lt_log (by positivity) hpow
  rw [Real.log_pow, Real.log_pow] at hlt
  push_cast at hlt
  linarith

lemma log_ratio_gt : (11/25 : ℝ) < Real.log (14/5) / Real.log 10 := by
  have h10 : (0 : ℝ) < Real.log 10 := Real.log_pos (by norm_num)
  rw [lt_div_iff₀ h10]
  have hpow : (10 : ℝ) ^ (11 : ℕ) < ((14 : ℝ)/5) ^ (25 : ℕ) := by norm_num
  have hlt := Real.log_lt_log (by positivity) hpow
  rw [Real.log_pow, Real.log_pow] at hlt
  push_cast at hlt
  linarith

lemma scenarioB_recency (now : ℝ) : calcRecencyScore now (scenarioB now) = 1.0 := by
  show (if now - (now - 3600) ≤ 3600 then (1.0 : ℝ)
      else if 86400 ≤ now - (now - 3600) then 0.1
      else max 0.1 (1.0 - ((now - (now - 3600)) / 3600 - 1) / 23)) = 1.0
  rw [if_pos (by linarith)]

lemma scenarioB_social (now : ℝ) :
    calcSocialVolumeScore (scenarioB now) = Real.log (14/5) / Real.log 10 := by
  show (if (1000 : ℤ) ≤ 0 then (0.0 : ℝ)
      else Real.log (1 + min (((1000 : ℤ) : ℝ) / 5000) 1.0 * 9) / Real.log 10)
    = Real.log (14/5) / Real.log 10
  rw [if_neg (by norm_num)]
  have hmin : min (((1000 : ℤ) : ℝ) / 5000) 1.0 = 1/5 := by
    rw [min_eq_left (by norm_num)]
    norm_num
  rw [hmin]
  norm_num

lemma titleQuality_recent_news : titleQuality "Recent news" = 0.7 := by
  unfold titleQuality
  rw [if_neg (by decide), if_neg (by decide), if_pos (by decide),
    if_neg (by decide), if_neg (by decide), if_neg (by decide)]
  norm_num

lemma scenarioB_title (now : ℝ) : calcTitleQualityScore (scenarioB now) = 0.7 :=
  titleQuality_recent_news

lemma scenarioB_bonus (now : ℝ) : calcRelevanceBonus (scenarioB now) = 0.1 := by
  show min ((if true then (0.1 : ℝ) else 0) + (if false then 0.05 else 0)) 0.2 = 0.1
  norm_num

lemma scenarioB_raw (now : ℝ) :
    calcItemScore emptySourceMap now (scenarioB now)
      = 0.55 + 0.2 * (Real.log (14/5) / Real.log 10) := by
  unfold calcItemScore
  rw [scenarioB_recency, scenarioB_social, scenarioB_bonus, scenarioB_title,
    show getSourceAuthority emptySourceMap (scenarioB now).source = 0.8 from rfl]
  rw [min_eq_left (by have := log_ratio_lt; linarith)]
  ring

lemma calculate_scores_singleton (sources : String → Option ℝ) (now : ℝ)
    (it : TrendItem) :
    (calculate_scores sources now [it]).map TrendItem.score = [0.5] := by
  unfold calculate_scores normalizeScores
  simp only [List.isEmpty_cons, Bool.false_eq_true, if_false, List.map_cons,
    List.map_nil]
  rw [if_pos (show pyMax [calcItemScore sources now it]
      = pyMin [calcItemScore sources now it] from rfl)]
  simp [sortByScoreDesc, insertDesc]

/-! ## Claim theorems for scenario B -/

/-- C4 (counterexample): the claim's numeric approximation is wrong — the
scenario-B raw score is below 0.645 (it is about 0.639), so it is not
approximately 0.659. -/
theorem scenario_b_not_approx_659 :
    calcItemScore emptySourceMap 86400 (scenarioB 86400) < 0.645 ∧
      (0.645 : ℝ) < 0.659 := by
  constructor
  · rw [scenarioB_raw]
    have := log_ratio_lt
    linarith
  · norm_num

/-- C4 (amended): the scenario-B raw score equals the claimed weighted
formula `0.30·1.0 + 0.20·0.8 + 0.20·(log(1+min(1000/5000,1)·9)/log 10) +
0.20·0.1 + 0.10·0.7`, whose value is ≈ 0.639 (strictly between 0.638 and
0.64), not ≈ 0.659; and the final output score after single-item
normalization is 0.5. -/
theorem scenario_b_score (now : ℝ) :
    calcItemScore emptySourceMap now (scenarioB now)
      = 0.30 * 1.0 + 0.20 * 0.8
        + 0.20 * (Real.log (1 + min ((1000 : ℝ) / 5000) 1 * 9) / Real.log 10)
        + 0.20 * 0.1 + 0.10 * 0.7 ∧
    0.638 < calcItemScore emptySourceMap now (scenarioB now) ∧
    calcItemScore emptySourceMap now (scenarioB now) < 0.64 ∧
    (calculate_scores emptySourceMap now [scenarioB now]).map TrendItem.score
      = [0.5] := by
  have hmin : (1 : ℝ) + min ((1000 : ℝ) / 5000) 1 * 9 = 14/5 := by
    rw [min_eq_left (by norm_num)]
    norm_num
  refine ⟨?_, ?_, ?_, calculate_scores_singleton _ _ _⟩
  · rw [scenarioB_raw, hmin]
    ring
  · rw [scenarioB_raw]
    have := log_ratio_gt
    linarith
  · rw [scenarioB_raw]
    have := log_ratio_lt
    linarith

/-! ## Aggregator lemmas -/

lemma foldl_collect (fetched : List (Except String (List TrendItem))) :
    ∀ acc : List TrendItem,
      fetched.foldl (fun acc r =>
        match r with
        | Except.ok items => acc ++ items
        | Except.error _ => acc) acc
      = acc ++ collectFetched fetched := by
  induction fetched with
  | nil => intro acc; simp [collectFetched]
  | cons r rest ih =>
    intro acc
    rw [collectFetched, List.foldl_cons, List.foldl_cons, ih]
    cases r with
    | ok its =>
      rw [ih ([] ++ its)]
      simp [List.append_assoc]
    | error e =>
      rw [ih []]
      simp

lemma collectFetched_cons (r : Except String (List TrendItem))
    (rest : List (Except String (List TrendItem))) :
    collectFetched (r :: rest) =
      (match r with
        | Except.ok items => items
        | Except.error _ => ([] : List TrendItem)) ++ collectFetched rest := by
  rw [collectFetched, List.foldl_cons, foldl_collect]
  cases r with
  | ok its => simp
  | error e => simp

lemma collect_skip_error (e : String)
    (A B : List (Except String (List TrendItem))) :
    collectFetched (A ++ Except.error e :: B) = collectFetched (A ++ B) := by
  induction A with
  | nil =>
    rw [List.nil_append, List.nil_append, collectFetched_cons]
    rfl
  | cons a A ih =>
    rw [List.cons_append, List.cons_append, collectFetched_cons,
      collectFetched_cons, ih]

lemma collect_all_empty (fetched : List (Except String (List TrendItem)))
    (h : ∀ r ∈ fetched, ∀ l, r = Except.ok l → l = []) :
    collectFetched fetched = [] := by
  induction fetched with
  | nil => rfl
  | cons r rest ih =>
    rw [collectFetched_cons]
    have hrest : collectFetched rest = [] :=
      ih (fun r hr => h r (List.mem_cons_of_mem _ hr))
    cases r with
    | ok its =>
      have : its = [] := h (Except.ok its) (List.mem_cons_self _ _) its rfl
      rw [hrest, this]
      rfl
    | error e =>
      rw [hrest]
      rfl

lemma aggregate_trends_take (md5hex : String → String)
    (sources : String → Option ℝ) (now : ℝ) (seen : List String)
    (fetched : List (Except String (List TrendItem))) (limit : ℕ) :
    aggregate_trends md5hex sources now seen fetched limit
      = List.take limit (calculate_scores sources now
          (deduplicate md5hex seen (collectFetched fetched)).1) := by
  by_cases hc : collectFetched fetched = []
  · rw [aggregate_trends, if_pos (by rw [hc]; rfl), hc,
      show (deduplicate md5hex seen ([] : List TrendItem)).1 = [] from rfl,
      show calculate_scores sources now ([] : List TrendItem) = [] from rfl,
      List.take_nil]
  · rw [aggregate_trends, if_neg ?_]
    intro hcon
    exact hc (List.isEmpty_iff.mp hcon)

/-! ## Claim theorem about the Aggregator -/

/-- C8: a raised fault while fetching from one source only skips that source
(the cycle's result is unchanged by removing the failing outcome); if every
source fails or yields no items the result is the empty sequence, with no
error raised; and the result is always the first `limit` entries of the
deduplicated, scored, sorted list — hence has at most `limit` items. -/
theorem aggregator_error_handling (md5hex : String → String)
    (sources : String → Option ℝ) (now : ℝ) (seen : List String) :
    (∀ (A B : List (Except String (List TrendItem))) (e : String) (limit : ℕ),
        aggregate_trends md5hex sources now seen (A ++ Except.error e :: B) limit
          = aggregate_trends md5hex sources now seen (A ++ B) limit) ∧
    (∀ (fetched : List (Except String (List TrendItem))) (limit : ℕ),
        (∀ r ∈ fetched, ∀ l, r = Except.ok l → l = []) →
        aggregate_trends md5hex sources now seen fetched limit = []) ∧
    (∀ (fetched : List (Except String (List TrendItem))) (limit : ℕ),
        aggregate_trends md5hex sources now seen fetched limit
          = List.take limit (calculate_scores sources now
              (deduplicate md5hex seen (collectFetched fetched)).1) ∧
        (aggregate_trends md5hex sources now seen fetched limit).length ≤ limit) := by
  refine ⟨?_, ?_, ?_⟩
  · intro A B e limit
    rw [aggregate_trends_take, aggregate_trends_take, collect_skip_error]
  · intro fetched limit h
    rw [aggregate_trends, if_pos (by rw [collect_all_empty fetched h]; rfl)]
  · intro fetched limit
    refine ⟨aggregate_trends_take md5hex sources now seen fetched limit, ?_⟩
    rw [aggregate_trends_take]
    exact le_trans (List.length_take_le _ _) le_rfl

/-- C8 (witness): with no sources configured, the hypothesis of the
empty-cycle clause holds vacuously and the aggregator returns the empty
list. -/
theorem aggregator_error_handling_witness :
    aggregate_trends id emptySourceMap 0 [] [] 5 = [] :=
  (aggregator_error_handling id emptySourceMap 0 []).2.1 [] 5 (by simp)

end TrendX
